import Mathlib

/-!
# Verification of the project-tracker aggregation and storage logic

Shallow embedding of `src/project_tracker/project_tracker.py`,
`src/project_tracker/db.py` and `src/project_tracker/employee_management.py`.

Modelling conventions:
* a `datetime` value (the parse of an ISO `commit_time` string) is an `Int`
  counting seconds since the Unix epoch 1970-01-01T00:00:00;
* a `date` value (the parse of an ISO `projected_end_date` string) is an `Int`
  counting days since 1970-01-01;
* `datetime.combine(d, time.min)` is therefore `d * 86400` seconds;
* durations in hours (`total_seconds() / 3600.0`) are rationals (`Rat`);
* Python dict/`defaultdict` grouping is modelled by the list of keys in order
  of first appearance plus, per key, the sublist of entries with that key
  (which is exactly how `defaultdict(list)` builds the groups);
* the sqlite store is a record of three tables; `UNIQUE` column constraints
  follow the schema in `db.py`.
-/

/-- One row of `fetch_all_logs`: a `project_status` row joined with the
project name (`project_tracker.py`, lines 84-93). -/
structure StatusLogEntry where
  id : Nat
  employee : String
  project_name : String
  status : String
  commit_time : Int
  projected_end_date : Int
  deriving DecidableEq, Repr

/-- The grouping key `(log["employee"], log["project_name"])` used by
`compute_summary` (line 100) and `create_time_vs_projected_graph` (line 169). -/
def logKey (log : StatusLogEntry) : String × String :=
  (log.employee, log.project_name)

/-- The keys of `project_groups` in order of first appearance: Python dicts
iterate in insertion order, and `defaultdict(list)` inserts a key the first
time a log with that key is appended. -/
def groupKeys (logs : List StatusLogEntry) : List (String × String) :=
  logs.foldl (fun ks log => if logKey log ∈ ks then ks else ks ++ [logKey log]) []

/-- The list `project_groups[key]`: all logs with the given key, in input
order (each `append` in the loop at lines 99-101 preserves order). -/
def groupEntries (logs : List StatusLogEntry) (k : String × String) : List StatusLogEntry :=
  logs.filter (fun log => logKey log = k)

/-- `done_records = [r for r in records if r["status"] == "Done"]` (line 105). -/
def doneRecords (records : List StatusLogEntry) : List StatusLogEntry :=
  records.filter (fun r => r.status = "Done")

/-- `min(datetime.fromisoformat(r["commit_time"]) for r in records)` with the
first generator element as the running value. -/
def minCommit (r0 : StatusLogEntry) (rs : List StatusLogEntry) : Int :=
  rs.foldl (fun acc r => min acc r.commit_time) r0.commit_time

/-- `max(datetime.fromisoformat(r["commit_time"]) for r in done_records)`. -/
def maxCommit (d0 : StatusLogEntry) (ds : List StatusLogEntry) : Int :=
  ds.foldl (fun acc r => max acc r.commit_time) d0.commit_time

/-- `start` of a group (line 107): the minimum commit time over all records;
`none` when the group is empty (which `compute_summary` never evaluates). -/
def groupStart : List StatusLogEntry → Option Int
  | [] => none
  | r0 :: rs => some (minCommit r0 rs)

/-- `finish` of a group (line 108): the maximum commit time over the done
records; `none` when there is no done record. -/
def groupFinish (records : List StatusLogEntry) : Option Int :=
  match doneRecords records with
  | [] => none
  | d0 :: ds => some (maxCommit d0 ds)

/-- Lines 105-114 of `compute_summary` for one group: `none` when
`done_records` is empty, otherwise `(projected_duration, actual_duration)`
in hours.  `projected_dt` is midnight of `records[0]["projected_end_date"]`. -/
def groupDurations (records : List StatusLogEntry) : Option (Rat × Rat) :=
  match records, groupStart records, groupFinish records with
  | r0 :: _, some start, some finish =>
      let actual_duration : Rat := ((finish - start : Int) : Rat) / 3600
      let projected_dt : Int := r0.projected_end_date * 86400
      let projected_duration : Rat := ((projected_dt - start : Int) : Rat) / 3600
      some (projected_duration, actual_duration)
  | _, _, _ => none

/-- Round a rational to the nearest integer, ties to even, matching how
Python's fixed-point formatting rounds an exactly representable value. -/
def roundHalfEven (q : Rat) : Int :=
  let f : Int := ⌊q⌋
  let frac : Rat := q - (f : Rat)
  if frac < 1/2 then f
  else if (1:Rat)/2 < frac then f + 1
  else if f % 2 = 0 then f else f + 1

/-- Python's `f"{x:.2f}"` on the exact rational value `q`. -/
def formatTwoDec (q : Rat) : String :=
  let n : Int := roundHalfEven (q * 100)
  let sign : String := if q < 0 then "-" else ""
  let m : Nat := n.natAbs
  let intPart : Nat := m / 100
  let fracPart : Nat := m % 100
  sign ++ toString intPart ++ "." ++ (if fracPart < 10 then "0" else "") ++ toString fracPart

/-- The f-string at lines 116-119 of `compute_summary`. -/
def summaryLine (employee project : String) (projected_duration actual_duration : Rat) : String :=
  "Employee: " ++ employee ++ ", Project: " ++ project ++
    ", Projected: " ++ formatTwoDec projected_duration ++
    " hrs, Actual: " ++ formatTwoDec actual_duration ++ " hrs"

/-- `summary_lines` after the loop at lines 104-120: one line per group whose
`done_records` is non-empty, in group-iteration order. -/
def summary_lines (logs : List StatusLogEntry) : List String :=
  (groupKeys logs).filterMap (fun k =>
    match groupDurations (groupEntries logs k) with
    | some (p, a) => some (summaryLine k.1 k.2 p a)
    | none => none)

/-- `compute_summary` (lines 97-121). -/
def compute_summary (logs : List StatusLogEntry) : String :=
  let lines := summary_lines logs
  if lines = [] then "No completed projects yet." else String.intercalate "\n" lines

/-- A group qualifies for the summary iff it has at least one Done entry. -/
def qualifies (logs : List StatusLogEntry) (k : String × String) : Bool :=
  decide (doneRecords (groupEntries logs k) ≠ [])

/-- The summary line of a qualifying group (`""` on a non-qualifying one,
which `compute_summary` never emits). -/
def lineFor (logs : List StatusLogEntry) (k : String × String) : String :=
  match groupDurations (groupEntries logs k) with
  | some (p, a) => summaryLine k.1 k.2 p a
  | none => ""

/-! ## Scatter series (`create_time_vs_projected_graph`, lines 165-189)

The chart wiring (plotly) is presentation; the embedded part is the list
`records` built by the loop at lines 171-189, which re-implements the same
grouping and duration computation as `compute_summary`. -/

/-- One element of `records` (lines 184-189). -/
structure ScatterRecord where
  employee : String
  project : String
  actual_duration : Rat
  projected_duration : Rat
  deriving DecidableEq, Repr

/-- The keys of `groups` built by the loop at lines 167-170, in insertion
order. -/
def scatterKeys (logs : List StatusLogEntry) : List (String × String) :=
  logs.foldl
    (fun ks log =>
      if (log.employee, log.project_name) ∈ ks then ks
      else ks ++ [(log.employee, log.project_name)]) []

/-- Lines 173-189 for one group `recs`: `none` when `done_recs` is empty,
otherwise the record appended to `records`. -/
def scatterGroupRecord (employee project : String) (recs : List StatusLogEntry) :
    Option ScatterRecord :=
  match recs, recs.filter (fun r => r.status = "Done") with
  | r0 :: rs, d0 :: ds =>
      let start := rs.foldl (fun acc r => min acc r.commit_time) r0.commit_time
      let finish := ds.foldl (fun acc r => max acc r.commit_time) d0.commit_time
      let actual_duration : Rat := ((finish - start : Int) : Rat) / 3600
      let projected_dt : Int := r0.projected_end_date * 86400
      let projected_duration : Rat := ((projected_dt - start : Int) : Rat) / 3600
      some { employee := employee, project := project,
             actual_duration := actual_duration, projected_duration := projected_duration }
  | _, _ => none

/-- The full `records` list of `create_time_vs_projected_graph`. -/
def scatter_records (logs : List StatusLogEntry) : List ScatterRecord :=
  (scatterKeys logs).filterMap (fun k =>
    scatterGroupRecord k.1 k.2
      (logs.filter (fun log => (log.employee, log.project_name) = k)))

/-! ## Weekly status grid (`create_commit_table`, lines 219-273)

`pd.to_period("W").start_time.date()` maps a timestamp to the Monday of its
calendar week.  Day 0 of the epoch (1970-01-01) was a Thursday, so Monday=0
weekday of epoch-day `d` is `(d + 3) % 7`. -/

/-- Monday of the week containing epoch-day `d`. -/
def dayWeek (d : Int) : Int := d - (d + 3) % 7

/-- `commit_week` of a log entry: the Monday of the week containing the date
of its commit timestamp (lines 225-227). -/
def commitWeek (t : Int) : Int := dayWeek (t.fdiv 86400)

/-- The `while current <= end_week` loop at lines 230-233, fuelled. -/
def weekSeq (s e : Int) : Nat → List Int
  | 0 => []
  | n + 1 => if s ≤ e then s :: weekSeq (s + 7) e n else []

/-- `start_week` (line 228): `df["commit_week"].min()` over the non-empty
log list. -/
def startWeek (l : StatusLogEntry) (ls : List StatusLogEntry) : Int :=
  ls.foldl (fun acc r => min acc (commitWeek r.commit_time)) (commitWeek l.commit_time)

/-- `end_week` (line 229): `df["commit_week"].max()`. -/
def endWeek (l : StatusLogEntry) (ls : List StatusLogEntry) : Int :=
  ls.foldl (fun acc r => max acc (commitWeek r.commit_time)) (commitWeek l.commit_time)

/-- `week_list` (lines 222-236): the continuous run of commit weeks from the
minimum to the maximum commit week when there are logs, else `[today]`
(today's date itself, line 236 — not the start of its week). -/
def week_list (logs : List StatusLogEntry) (today : Int) : List Int :=
  match logs with
  | [] => [today]
  | l :: ls =>
      weekSeq (startWeek l ls) (endWeek l ls)
        ((endWeek l ls - startWeek l ls).toNat / 7 + 1)

/-- `status_by_emp_week` lookup (lines 239-245, 267): the statuses logged by
`emp` in week `w`, in row order. -/
def statusesFor (logs : List StatusLogEntry) (emp : String) (w : Int) : List String :=
  (logs.filter (fun r => r.employee = emp ∧ commitWeek r.commit_time = w)).map
    (fun r => r.status)

/-- `determine_color` (lines 247-255). -/
def determine_color (statuses : List String) : String :=
  if statuses.any (fun s => decide (s = "Blocked" ∨ s = "At Risk")) then "red"
  else if statuses.any (fun s => decide (s = "Off Track")) then "yellow"
  else if (!statuses.isEmpty) && statuses.all (fun s => decide (s = "In Progress" ∨ s = "Done"))
    then "green"
  else "white"

/-- The colour of one cell (line 268): `determine_color(statuses) if statuses
else "lightgrey"`. -/
def cellColor (statuses : List String) : String :=
  if statuses.isEmpty then "lightgrey" else determine_color statuses

/-- The body rows of the commit table (lines 264-271): one row per employee
in order, one cell colour per week column. -/
def weekly_grid (logs : List StatusLogEntry) (employees : List String) (today : Int) :
    List (String × List String) :=
  employees.map (fun emp =>
    (emp, (week_list logs today).map (fun w => cellColor (statusesFor logs emp w))))

/-! ## The sqlite store (`db.py`, `employee_management.py`, CRUD in
`project_tracker.py`)

Tables as in `init_db`; `id` columns are `INTEGER PRIMARY KEY AUTOINCREMENT`,
`name` columns of `projects` and `employees` are `UNIQUE`.  An `INSERT` that
violates a `UNIQUE` constraint fails and leaves the table unchanged; a
`DELETE` whose `WHERE` clause matches nothing is a no-op, not an error. -/

/-- A row of `projects`. -/
structure ProjectRow where
  id : Nat
  name : String
  deriving DecidableEq, Repr

/-- A row of `employees`. -/
structure EmployeeRow where
  id : Nat
  name : String
  deriving DecidableEq, Repr

/-- A row of `project_status`; `project_id` has no foreign-key constraint. -/
structure LogRow where
  id : Nat
  employee : String
  project_id : Nat
  status : String
  commit_time : Int
  projected_end_date : Int
  deriving DecidableEq, Repr

/-- The persistent state: the three tables plus the autoincrement counters. -/
structure Store where
  projects : List ProjectRow
  employees : List EmployeeRow
  project_status : List LogRow
  next_project_id : Nat
  next_employee_id : Nat
  next_log_id : Nat
  deriving DecidableEq, Repr

/-- The only storage error the schema can produce for these statements. -/
inductive DbError where
  | uniqueConstraintViolation
  deriving DecidableEq, Repr

/-- `add_project` (`project_tracker.py` lines 13-18): `INSERT INTO
projects(name) VALUES (?)`; fails on a duplicate name by the `UNIQUE`
constraint of `db.py` line 18, leaving the table unchanged. -/
def add_project (st : Store) (name : String) : Except DbError Unit × Store :=
  if st.projects.any (fun p => p.name = name) then
    (.error .uniqueConstraintViolation, st)
  else
    (.ok (), { st with
      projects := st.projects ++ [{ id := st.next_project_id, name := name }],
      next_project_id := st.next_project_id + 1 })

/-- `EmployeeManager.add_employee` (`employee_management.py` lines 30-35):
same shape against the `employees` table. -/
def add_employee (st : Store) (name : String) : Except DbError Unit × Store :=
  if st.employees.any (fun e => e.name = name) then
    (.error .uniqueConstraintViolation, st)
  else
    (.ok (), { st with
      employees := st.employees ++ [{ id := st.next_employee_id, name := name }],
      next_employee_id := st.next_employee_id + 1 })

/-- `delete_log` (`project_tracker.py` lines 63-68): `DELETE FROM
project_status WHERE id = ?` — keeps every row with a different id. -/
def delete_log (st : Store) (log_id : Nat) : Store :=
  { st with project_status := st.project_status.filter (fun r => decide (r.id ≠ log_id)) }

/-- `EmployeeManager.delete_employee` (`employee_management.py` lines 38-43). -/
def delete_employee (st : Store) (emp_id : Nat) : Store :=
  { st with employees := st.employees.filter (fun e => decide (e.id ≠ emp_id)) }

/-- The `JOIN projects ON project_status.project_id = projects.id` of
`fetch_all_logs` (lines 76-78) applied to one `project_status` row: `id` is a
primary key, so at most one project matches and the row yields at most one
joined row — none when the reference dangles. -/
def joinRow (projects : List ProjectRow) (r : LogRow) : Option StatusLogEntry :=
  match projects.find? (fun p => p.id = r.project_id) with
  | some p => some { id := r.id, employee := r.employee, project_name := p.name,
                     status := r.status, commit_time := r.commit_time,
                     projected_end_date := r.projected_end_date }
  | none => none

/-- `fetch_all_logs` (lines 71-94): the join, ordered by `commit_time`
ascending (ISO strings compare lexicographically exactly as their
timestamps compare). -/
def fetch_all_logs (st : Store) : List StatusLogEntry :=
  List.insertionSort (fun a b => a.commit_time ≤ b.commit_time)
    (st.project_status.filterMap (joinRow st.projects))

/-- The store with the dangling `project_status` rows (no matching project)
removed; `fetch_all_logs` cannot tell it from the original. -/
def dropDangling (st : Store) : Store :=
  { st with project_status :=
      st.project_status.filter (fun r => st.projects.any (fun p => p.id = r.project_id)) }

/-- The scenario of §8 of the spec.  In the encoding of the module docstring:
2024-01-01 is day 19723 (so 2024-01-08 is day 19730) and
2024-01-01T09:00 = 1704099600 s, 2024-01-03T09:00 = 1704272400 s,
2024-01-10T09:00 = 1704877200 s since the epoch. -/
def aliceLogs : List StatusLogEntry :=
  [{ id := 1, employee := "Alice", project_name := "Site Migration",
     status := "Not Started", commit_time := 1704099600, projected_end_date := 19730 },
   { id := 2, employee := "Alice", project_name := "Site Migration",
     status := "In Progress", commit_time := 1704272400, projected_end_date := 19730 },
   { id := 3, employee := "Alice", project_name := "Site Migration",
     status := "Done", commit_time := 1704877200, projected_end_date := 19730 }]

/-- A small concrete log used to instantiate witnesses. -/
def wLog1 : StatusLogEntry :=
  { id := 1, employee := "A", project_name := "P", status := "Done",
    commit_time := 100, projected_end_date := 2 }

/-- A second concrete log in the same group as `wLog1`, committed later. -/
def wLog2 : StatusLogEntry :=
  { id := 2, employee := "A", project_name := "P", status := "Done",
    commit_time := 200, projected_end_date := 3 }

/-! ## General list lemmas -/

theorem foldl_min_le_init (l : List Int) : ∀ a : Int, l.foldl min a ≤ a := by
  induction l with
  | nil => intro a; exact le_refl a
  | cons x xs ih =>
      intro a
      simp only [List.foldl_cons]
      exact le_trans (ih (min a x)) (min_le_left a x)

theorem foldl_min_le_mem (l : List Int) : ∀ a x, x ∈ l → l.foldl min a ≤ x := by
  induction l with
  | nil => intro a x hx; cases hx
  | cons y ys ih =>
      intro a x hx
      simp only [List.foldl_cons]
      rcases List.mem_cons.mp hx with rfl | hx
      · exact le_trans (foldl_min_le_init ys (min a x)) (min_le_right a x)
      · exact ih (min a y) x hx

theorem foldl_min_mem (l : List Int) : ∀ a, l.foldl min a = a ∨ l.foldl min a ∈ l := by
  induction l with
  | nil => intro a; exact Or.inl rfl
  | cons y ys ih =>
      intro a
      simp only [List.foldl_cons]
      rcases ih (min a y) with h | h
      · rcases min_choice a y with hm | hm
        · exact Or.inl (h.trans hm)
        · right; rw [h, hm]; exact List.mem_cons_self y ys
      · exact Or.inr (List.mem_cons_of_mem y h)

theorem foldl_min_eq_init (l : List Int) : ∀ a, (∀ x ∈ l, a ≤ x) → l.foldl min a = a := by
  induction l with
  | nil => intro a _; rfl
  | cons y ys ih =>
      intro a h
      simp only [List.foldl_cons]
      rw [min_eq_left (h y (List.mem_cons_self y ys))]
      exact ih a (fun x hx => h x (List.mem_cons_of_mem y hx))

theorem foldl_max_ge_init (l : List Int) : ∀ a : Int, a ≤ l.foldl max a := by
  induction l with
  | nil => intro a; exact le_refl a
  | cons x xs ih =>
      intro a
      simp only [List.foldl_cons]
      exact le_trans (le_max_left a x) (ih (max a x))

theorem foldl_max_ge_mem (l : List Int) : ∀ a x, x ∈ l → x ≤ l.foldl max a := by
  induction l with
  | nil => intro a x hx; cases hx
  | cons y ys ih =>
      intro a x hx
      simp only [List.foldl_cons]
      rcases List.mem_cons.mp hx with rfl | hx
      · exact le_trans (le_max_right a x) (foldl_max_ge_init ys (max a x))
      · exact ih (max a y) x hx

theorem foldl_max_mem (l : List Int) : ∀ a, l.foldl max a = a ∨ l.foldl max a ∈ l := by
  induction l with
  | nil => intro a; exact Or.inl rfl
  | cons y ys ih =>
      intro a
      simp only [List.foldl_cons]
      rcases ih (max a y) with h | h
      · rcases max_choice a y with hm | hm
        · exact Or.inl (h.trans hm)
        · right; rw [h, hm]; exact List.mem_cons_self y ys
      · exact Or.inr (List.mem_cons_of_mem y h)

theorem minCommit_eq_foldl (r0 : StatusLogEntry) (rs : List StatusLogEntry) :
    minCommit r0 rs = (rs.map (fun r => r.commit_time)).foldl min r0.commit_time := by
  unfold minCommit
  rw [List.foldl_map]

theorem maxCommit_eq_foldl (d0 : StatusLogEntry) (ds : List StatusLogEntry) :
    maxCommit d0 ds = (ds.map (fun r => r.commit_time)).foldl max d0.commit_time := by
  unfold maxCommit
  rw [List.foldl_map]

theorem minCommit_le (r0 : StatusLogEntry) (rs : List StatusLogEntry) :
    ∀ r ∈ r0 :: rs, minCommit r0 rs ≤ r.commit_time := by
  intro r hr
  rw [minCommit_eq_foldl]
  rcases List.mem_cons.mp hr with rfl | hr
  · exact foldl_min_le_init _ _
  · exact foldl_min_le_mem _ _ _ (List.mem_map_of_mem _ hr)

theorem minCommit_mem (r0 : StatusLogEntry) (rs : List StatusLogEntry) :
    ∃ r ∈ r0 :: rs, r.commit_time = minCommit r0 rs := by
  rw [minCommit_eq_foldl]
  rcases foldl_min_mem (rs.map (fun r => r.commit_time)) r0.commit_time with h | h
  · exact ⟨r0, List.mem_cons_self r0 rs, h.symm⟩
  · obtain ⟨r, hr, he⟩ := List.mem_map.mp h
    exact ⟨r, List.mem_cons_of_mem r0 hr, he⟩

theorem maxCommit_ge (d0 : StatusLogEntry) (ds : List StatusLogEntry) :
    ∀ r ∈ d0 :: ds, r.commit_time ≤ maxCommit d0 ds := by
  intro r hr
  rw [maxCommit_eq_foldl]
  rcases List.mem_cons.mp hr with rfl | hr
  · exact foldl_max_ge_init _ _
  · exact foldl_max_ge_mem _ _ _ (List.mem_map_of_mem _ hr)

theorem maxCommit_mem (d0 : StatusLogEntry) (ds : List StatusLogEntry) :
    ∃ r ∈ d0 :: ds, r.commit_time = maxCommit d0 ds := by
  rw [maxCommit_eq_foldl]
  rcases foldl_max_mem (ds.map (fun r => r.commit_time)) d0.commit_time with h | h
  · exact ⟨d0, List.mem_cons_self d0 ds, h.symm⟩
  · obtain ⟨r, hr, he⟩ := List.mem_map.mp h
    exact ⟨r, List.mem_cons_of_mem d0 hr, he⟩

theorem mem_foldl_keys (logs : List StatusLogEntry) :
    ∀ (acc : List (String × String)) (k : String × String),
      k ∈ logs.foldl (fun ks log => if logKey log ∈ ks then ks else ks ++ [logKey log]) acc ↔
        k ∈ acc ∨ ∃ log ∈ logs, logKey log = k := by
  induction logs with
  | nil => intro acc k; simp
  | cons x xs ih =>
      intro acc k
      simp only [List.foldl_cons]
      rw [ih]
      constructor
      · rintro (h | ⟨log, hl, hk⟩)
        · by_cases hx : logKey x ∈ acc
          · rw [if_pos hx] at h; exact Or.inl h
          · rw [if_neg hx] at h
            rcases List.mem_append.mp h with h | h
            · exact Or.inl h
            · exact Or.inr ⟨x, List.mem_cons_self x xs, (List.mem_singleton.mp h).symm⟩
        · exact Or.inr ⟨log, List.mem_cons_of_mem x hl, hk⟩
      · rintro (h | ⟨log, hl, hk⟩)
        · left
          by_cases hx : logKey x ∈ acc
          · rw [if_pos hx]; exact h
          · rw [if_neg hx]; exact List.mem_append_left _ h
        · rcases List.mem_cons.mp hl with rfl | hl
          · left
            by_cases hx : logKey log ∈ acc
            · rw [if_pos hx, ← hk]; exact hx
            · rw [if_neg hx, ← hk]
              exact List.mem_append_right _ (List.mem_singleton.mpr rfl)
          · exact Or.inr ⟨log, hl, hk⟩

theorem mem_groupKeys (logs : List StatusLogEntry) (k : String × String) :
    k ∈ groupKeys logs ↔ ∃ log ∈ logs, logKey log = k := by
  unfold groupKeys
  rw [mem_foldl_keys]
  simp

theorem groupEntries_ne_nil (logs : List StatusLogEntry) (k : String × String)
    (h : k ∈ groupKeys logs) : groupEntries logs k ≠ [] := by
  obtain ⟨log, hl, hk⟩ := (mem_groupKeys logs k).mp h
  exact List.ne_nil_of_mem (List.mem_filter.mpr ⟨hl, by simp [hk]⟩)

theorem groupDurations_isSome (records : List StatusLogEntry) :
    (groupDurations records).isSome ↔ records ≠ [] ∧ doneRecords records ≠ [] := by
  rcases records with _ | ⟨r0, rs⟩
  · simp [groupDurations]
  · rcases hd : doneRecords (r0 :: rs) with _ | ⟨d0, ds⟩
    · simp [groupDurations, groupStart, groupFinish, hd]
    · simp [groupDurations, groupStart, groupFinish, hd]

theorem filterMap_eq_map_filter {α β : Type} (f : α → Option β) (p : α → Bool) (g : α → β) :
    ∀ l : List α, (∀ a ∈ l, (f a).isSome = p a) → (∀ a ∈ l, p a = true → f a = some (g a)) →
      l.filterMap f = (l.filter p).map g := by
  intro l
  induction l with
  | nil => intro _ _; rfl
  | cons x xs ih =>
      intro h1 h2
      have hx1 := h1 x (List.mem_cons_self x xs)
      have ihx := ih (fun a ha => h1 a (List.mem_cons_of_mem x ha))
        (fun a ha => h2 a (List.mem_cons_of_mem x ha))
      by_cases hp : p x = true
      · have hfx : f x = some (g x) := h2 x (List.mem_cons_self x xs) hp
        simp [List.filterMap_cons, hfx, List.filter_cons, hp, ihx]
      · have hfx : f x = none := by
          rcases hf : f x with _ | b
          · rfl
          · rw [hf] at hx1
            simp only [Option.isSome_some] at hx1
            exact absurd hx1.symm hp
        simp [List.filterMap_cons, hfx, List.filter_cons, hp, ihx]

theorem doneRecords_subset (records : List StatusLogEntry) :
    ∀ r ∈ doneRecords records, r ∈ records :=
  fun _ hr => List.mem_of_mem_filter hr

/-! ## Claims -/

/-- C1: `compute_summary` emits exactly one summary line per
(employee, project_name) group with at least one `Done` entry, none for the
others, and the literal `"No completed projects yet."` when no group
qualifies (in particular on the empty input). -/
theorem C1 (logs : List StatusLogEntry) :
    summary_lines logs = ((groupKeys logs).filter (qualifies logs)).map (lineFor logs) ∧
    (summary_lines logs).length = ((groupKeys logs).filter (qualifies logs)).length ∧
    ((groupKeys logs).filter (qualifies logs) = [] →
      compute_summary logs = "No completed projects yet.") := by
  have hmain : summary_lines logs =
      ((groupKeys logs).filter (qualifies logs)).map (lineFor logs) := by
    unfold summary_lines
    apply filterMap_eq_map_filter
    · intro k hk
      have hne := groupEntries_ne_nil logs k hk
      rcases hgd : groupDurations (groupEntries logs k) with _ | ⟨p, a⟩
      · have hds : doneRecords (groupEntries logs k) = [] := by
          by_contra hne2
          have hs : (groupDurations (groupEntries logs k)).isSome :=
            (groupDurations_isSome _).mpr ⟨hne, hne2⟩
          rw [hgd] at hs
          exact absurd hs (by simp)
        simp [qualifies, hds]
      · have hds : doneRecords (groupEntries logs k) ≠ [] := by
          have hs : (groupDurations (groupEntries logs k)).isSome := by rw [hgd]; rfl
          exact ((groupDurations_isSome _).mp hs).2
        simp [qualifies, hds]
    · intro k hk hq
      rcases hgd : groupDurations (groupEntries logs k) with _ | ⟨p, a⟩
      · have hds : doneRecords (groupEntries logs k) ≠ [] := by
          simpa [qualifies] using hq
        have hs : (groupDurations (groupEntries logs k)).isSome :=
          (groupDurations_isSome _).mpr ⟨groupEntries_ne_nil logs k hk, hds⟩
        rw [hgd] at hs
        exact absurd hs (by simp)
      · simp [lineFor, hgd]
  refine ⟨hmain, ?_, ?_⟩
  · rw [hmain, List.length_map]
  · intro h
    have hempty : summary_lines logs = [] := by rw [hmain, h]; rfl
    simp [compute_summary, hempty]

/-- Witness for C1, at the empty log list: no group qualifies and the
summary is the literal fallback string. -/
theorem C1_witness :
    summary_lines [] = ((groupKeys []).filter (qualifies [])).map (lineFor []) ∧
    (summary_lines []).length = ((groupKeys []).filter (qualifies [])).length ∧
    ((groupKeys []).filter (qualifies []) = [] →
      compute_summary [] = "No completed projects yet.") := C1 []

/-- C2: for every group with a `Done` entry, `start` is the minimum commit
time over all entries, `finish` the maximum over the `Done` entries, the
actual duration is `(finish - start)` in fractional hours, and consequently
`start ≤ finish` and the actual duration is nonnegative. -/
theorem C2 (records : List StatusLogEntry) (hd : doneRecords records ≠ []) :
    ∃ s f, groupStart records = some s ∧ groupFinish records = some f ∧
      (∀ r ∈ records, s ≤ r.commit_time) ∧ (∃ r ∈ records, r.commit_time = s) ∧
      (∀ r ∈ doneRecords records, r.commit_time ≤ f) ∧
      (∃ r ∈ doneRecords records, r.commit_time = f) ∧
      (∃ p, groupDurations records = some (p, ((f - s : Int) : Rat) / 3600)) ∧
      s ≤ f ∧ 0 ≤ ((f - s : Int) : Rat) / 3600 := by
  cases records with
  | nil => exact absurd rfl hd
  | cons r0 rs =>
      rcases hdr : doneRecords (r0 :: rs) with _ | ⟨d0, ds⟩
      · exact absurd hdr hd
      · have hsf : minCommit r0 rs ≤ maxCommit d0 ds := by
          obtain ⟨d, hdmem, hde⟩ := maxCommit_mem d0 ds
          have hdin : d ∈ r0 :: rs := by
            apply doneRecords_subset
            rw [hdr]
            exact hdmem
          calc minCommit r0 rs ≤ d.commit_time := minCommit_le r0 rs d hdin
            _ = maxCommit d0 ds := hde
        refine ⟨minCommit r0 rs, maxCommit d0 ds, rfl, ?_, minCommit_le r0 rs,
          minCommit_mem r0 rs, ?_, ?_, ?_, hsf, ?_⟩
        · unfold groupFinish
          rw [hdr]
        · intro r hr
          exact maxCommit_ge d0 ds r hr
        · exact maxCommit_mem d0 ds
        · refine ⟨((r0.projected_end_date * 86400 - minCommit r0 rs : Int) : Rat) / 3600, ?_⟩
          simp [groupDurations, groupStart, groupFinish, hdr]
        · apply div_nonneg
          · have h0 : (0 : Int) ≤ maxCommit d0 ds - minCommit r0 rs := by omega
            exact_mod_cast h0
          · norm_num

/-- Witness for C2, at the concrete Alice group of §8 of the spec. -/
theorem C2_witness :
    ∃ s f, groupStart aliceLogs = some s ∧ groupFinish aliceLogs = some f ∧
      (∀ r ∈ aliceLogs, s ≤ r.commit_time) ∧ (∃ r ∈ aliceLogs, r.commit_time = s) ∧
      (∀ r ∈ doneRecords aliceLogs, r.commit_time ≤ f) ∧
      (∃ r ∈ doneRecords aliceLogs, r.commit_time = f) ∧
      (∃ p, groupDurations aliceLogs = some (p, ((f - s : Int) : Rat) / 3600)) ∧
      s ≤ f ∧ 0 ≤ ((f - s : Int) : Rat) / 3600 :=
  C2 aliceLogs (by decide)

theorem formatTwoDec_159 : formatTwoDec 159 = "159.00" := by
  have h : roundHalfEven ((159 : Rat) * 100) = 15900 := by
    unfold roundHalfEven
    norm_num
  have hneg : ¬ ((159 : Rat) < 0) := by norm_num
  simp only [formatTwoDec, h, if_neg hneg]
  rfl

theorem formatTwoDec_216 : formatTwoDec 216 = "216.00" := by
  have h : roundHalfEven ((216 : Rat) * 100) = 21600 := by
    unfold roundHalfEven
    norm_num
  have hneg : ¬ ((216 : Rat) < 0) := by norm_num
  simp only [formatTwoDec, h, if_neg hneg]
  rfl

/-- C5: the concrete §8 scenario — Alice's "Site Migration" logs at
2024-01-01T09:00 (Not Started), 2024-01-03T09:00 (In Progress) and
2024-01-10T09:00 (Done), each projecting 2024-01-08, summarize to exactly
the expected line with 159.00 projected and 216.00 actual hours. -/
theorem C5 :
    compute_summary aliceLogs =
      "Employee: Alice, Project: Site Migration, Projected: 159.00 hrs, Actual: 216.00 hrs" := by
  have hd : groupDurations (groupEntries aliceLogs ("Alice", "Site Migration")) =
      some (159, 216) := by
    rw [show groupDurations (groupEntries aliceLogs ("Alice", "Site Migration")) =
        some (((572400 : Int) : Rat) / 3600, ((777600 : Int) : Rat) / 3600) from rfl]
    norm_num
  have hk : groupKeys aliceLogs = [("Alice", "Site Migration")] := rfl
  have hl : summary_lines aliceLogs = [summaryLine "Alice" "Site Migration" 159 216] := by
    unfold summary_lines
    rw [hk]
    simp only [List.filterMap_cons, List.filterMap_nil, hd]
  have hfmt : summaryLine "Alice" "Site Migration" 159 216 =
      "Employee: Alice, Project: Site Migration, Projected: 159.00 hrs, Actual: 216.00 hrs" := by
    unfold summaryLine
    rw [formatTwoDec_159, formatTwoDec_216]
    rfl
  simp only [compute_summary, hl, hfmt]
  rfl

instance commit_le_total : IsTotal StatusLogEntry (fun a b => a.commit_time ≤ b.commit_time) :=
  ⟨fun a b => le_total a.commit_time b.commit_time⟩

instance commit_le_trans : IsTrans StatusLogEntry (fun a b => a.commit_time ≤ b.commit_time) :=
  ⟨fun _ _ _ h1 h2 => le_trans h1 h2⟩

theorem doneRecords_map_commit (l : List StatusLogEntry) :
    ∀ l' : List StatusLogEntry,
      l.map (fun r => r.commit_time) = l'.map (fun r => r.commit_time) →
      l.map (fun r => r.status) = l'.map (fun r => r.status) →
      (doneRecords l).map (fun r => r.commit_time) =
        (doneRecords l').map (fun r => r.commit_time) := by
  induction l with
  | nil =>
      intro l' hc _
      cases l' with
      | nil => rfl
      | cons y ys => simp at hc
  | cons x xs ih =>
      intro l' hc hs
      cases l' with
      | nil => simp at hc
      | cons y ys =>
          simp only [List.map_cons, List.cons.injEq] at hc hs
          obtain ⟨hc1, hc2⟩ := hc
          obtain ⟨hs1, hs2⟩ := hs
          unfold doneRecords
          by_cases hy : x.status = "Done"
          · have hy' : y.status = "Done" := by rw [← hs1]; exact hy
            simp only [List.filter_cons, hy, hy', decide_True, if_true, List.map_cons, hc1]
            refine congrArg _ ?_
            exact ih ys hc2 hs2
          · have hy' : ¬ y.status = "Done" := by rw [← hs1]; exact hy
            simp only [List.filter_cons, hy, hy', decide_False, if_false]
            exact ih ys hc2 hs2

theorem groupDurations_congr (r0 : StatusLogEntry) (rs rs' : List StatusLogEntry)
    (hc : rs.map (fun r => r.commit_time) = rs'.map (fun r => r.commit_time))
    (hs : rs.map (fun r => r.status) = rs'.map (fun r => r.status)) :
    groupDurations (r0 :: rs) = groupDurations (r0 :: rs') := by
  have hstart : minCommit r0 rs = minCommit r0 rs' := by
    rw [minCommit_eq_foldl, minCommit_eq_foldl, hc]
  have hdone : (doneRecords (r0 :: rs)).map (fun r => r.commit_time) =
      (doneRecords (r0 :: rs')).map (fun r => r.commit_time) := by
    apply doneRecords_map_commit
    · simp only [List.map_cons, hc]
    · simp only [List.map_cons, hs]
  have hfin : groupFinish (r0 :: rs) = groupFinish (r0 :: rs') := by
    unfold groupFinish
    rcases h1 : doneRecords (r0 :: rs) with _ | ⟨d0, ds⟩ <;>
      rcases h2 : doneRecords (r0 :: rs') with _ | ⟨e0, es⟩
    · rfl
    · rw [h1, h2] at hdone; simp at hdone
    · rw [h1, h2] at hdone; simp at hdone
    · rw [h1, h2] at hdone
      simp only [List.map_cons, List.cons.injEq] at hdone
      obtain ⟨h01, h02⟩ := hdone
      show some (maxCommit d0 ds) = some (maxCommit e0 es)
      rw [maxCommit_eq_foldl, maxCommit_eq_foldl, h01, h02]
  unfold groupDurations
  simp only [groupStart, hstart, hfin]
  rcases groupFinish (r0 :: rs') with _ | f
  · rfl
  · rfl

/-- C3: `fetch_all_logs` returns logs sorted by commit time; for a group of
such sorted logs the first entry is the group's earliest log, the projected
duration is the hours from the group start to midnight of the FIRST entry's
`projected_end_date`, and the later entries' `projected_end_date` values
have no effect on the computed durations. -/
theorem C3 (logs : List StatusLogEntry) (k : String × String) (r0 : StatusLogEntry)
    (rs : List StatusLogEntry)
    (hsorted : logs.Pairwise (fun a b => a.commit_time ≤ b.commit_time))
    (hg : groupEntries logs k = r0 :: rs) :
    (∀ st : Store, (fetch_all_logs st).Pairwise (fun a b => a.commit_time ≤ b.commit_time)) ∧
    groupStart (r0 :: rs) = some r0.commit_time ∧
    (∀ p a, groupDurations (r0 :: rs) = some (p, a) →
      p = ((r0.projected_end_date * 86400 - r0.commit_time : Int) : Rat) / 3600) ∧
    (∀ rs' : List StatusLogEntry,
      rs.map (fun r => r.commit_time) = rs'.map (fun r => r.commit_time) →
      rs.map (fun r => r.status) = rs'.map (fun r => r.status) →
      groupDurations (r0 :: rs) = groupDurations (r0 :: rs')) := by
  have hpair : (r0 :: rs).Pairwise (fun a b => a.commit_time ≤ b.commit_time) := by
    rw [← hg]
    exact List.Pairwise.sublist (List.filter_sublist logs) hsorted
  have hmin : minCommit r0 rs = r0.commit_time := by
    have h0 : ∀ r ∈ rs, r0.commit_time ≤ r.commit_time := (List.pairwise_cons.mp hpair).1
    rw [minCommit_eq_foldl]
    apply foldl_min_eq_init
    intro x hx
    obtain ⟨r, hr, rfl⟩ := List.mem_map.mp hx
    exact h0 r hr
  refine ⟨fun st => List.sorted_insertionSort _ _, by simp [groupStart, hmin], ?_, ?_⟩
  · intro p a h
    simp only [groupDurations, groupStart, hmin] at h
    rcases hf : groupFinish (r0 :: rs) with _ | f
    · rw [hf] at h
      exact absurd h (by simp)
    · rw [hf] at h
      simp only [Option.some.injEq, Prod.mk.injEq] at h
      exact h.1.symm
  · intro rs' hc hs
    exact groupDurations_congr r0 rs rs' hc hs

/-- Witness for C3, at a concrete two-element sorted group. -/
theorem C3_witness :
    (∀ st : Store, (fetch_all_logs st).Pairwise (fun a b => a.commit_time ≤ b.commit_time)) ∧
    groupStart [wLog1, wLog2] = some wLog1.commit_time ∧
    (∀ p a, groupDurations [wLog1, wLog2] = some (p, a) →
      p = ((wLog1.projected_end_date * 86400 - wLog1.commit_time : Int) : Rat) / 3600) ∧
    (∀ rs' : List StatusLogEntry,
      [wLog2].map (fun r => r.commit_time) = rs'.map (fun r => r.commit_time) →
      [wLog2].map (fun r => r.status) = rs'.map (fun r => r.status) →
      groupDurations [wLog1, wLog2] = groupDurations (wLog1 :: rs')) :=
  C3 [wLog1, wLog2] ("A", "P") wLog1 [wLog2] (by decide) (by decide)

/-- C4: the colour of a weekly-grid cell follows the exact first-match
precedence red > yellow > green > white with lightgrey for an empty cell;
in particular any cell containing "Blocked" — e.g. one also containing
"Done" — is red. -/
theorem C4 (statuses : List String) :
    cellColor statuses =
      (if ∃ s ∈ statuses, s = "Blocked" ∨ s = "At Risk" then "red"
       else if ∃ s ∈ statuses, s = "Off Track" then "yellow"
       else if statuses ≠ [] ∧ ∀ s ∈ statuses, s = "In Progress" ∨ s = "Done" then "green"
       else if statuses ≠ [] then "white"
       else "lightgrey") ∧
    ("Blocked" ∈ statuses → cellColor statuses = "red") := by
  constructor
  · cases statuses with
    | nil => simp [cellColor, determine_color]
    | cons a as =>
        simp only [cellColor, determine_color, List.any_eq_true, List.all_eq_true]
        simp
  · intro hb
    have h1 : cellColor statuses = determine_color statuses := by
      cases statuses with
      | nil => cases hb
      | cons a as => rfl
    rw [h1]
    unfold determine_color
    have hany : statuses.any (fun s => decide (s = "Blocked" ∨ s = "At Risk")) = true := by
      rw [List.any_eq_true]
      exact ⟨"Blocked", hb, by simp⟩
    rw [if_pos hany]

/-- Witness for C4: the cell containing both "Blocked" and "Done" classifies
red. -/
theorem C4_witness : cellColor ["Blocked", "Done"] = "red" :=
  (C4 ["Blocked", "Done"]).2 (by simp)

theorem filterMap_filter_eq {α β : Type} (f : α → Option β) (q : α → Bool)
    (h : ∀ a, q a = false → f a = none) :
    ∀ l : List α, (l.filter q).filterMap f = l.filterMap f := by
  intro l
  induction l with
  | nil => rfl
  | cons x xs ih =>
      by_cases hq : q x = true
      · simp [List.filter_cons, hq, List.filterMap_cons, ih]
      · have hq' : q x = false := by
          cases hqq : q x
          · rfl
          · exact absurd hqq hq
        simp [List.filter_cons, hq', List.filterMap_cons, h x hq', ih]

theorem length_filterMap_congr {α β γ : Type} (f : α → Option β) (g : α → Option γ) :
    ∀ l : List α, (∀ a ∈ l, (f a).isSome = (g a).isSome) →
      (l.filterMap f).length = (l.filterMap g).length := by
  intro l
  induction l with
  | nil => intro _; rfl
  | cons x xs ih =>
      intro h
      have hx := h x (List.mem_cons_self x xs)
      have ihx := ih (fun a ha => h a (List.mem_cons_of_mem x ha))
      rcases hf : f x with _ | b <;> rcases hg : g x with _ | c
      · simp [List.filterMap_cons, hf, hg, ihx]
      · rw [hf, hg] at hx; simp at hx
      · rw [hf, hg] at hx; simp at hx
      · simp [List.filterMap_cons, hf, hg, ihx]

/-- C7: whenever a project with a name is already present (exactly once, as
the unique constraint keeps it), inserting it again fails with the
uniqueness violation, leaves the store unchanged, and exactly one row with
that name remains; and independently the same for an employee name — each
side assumes only its own table. -/
theorem C7 (st : Store) (name : String) :
    ((st.projects.filter (fun p => p.name = name)).length = 1 →
      (add_project st name).1 = .error .uniqueConstraintViolation ∧
      (add_project st name).2 = st ∧
      ((add_project st name).2.projects.filter (fun p => p.name = name)).length = 1) ∧
    ((st.employees.filter (fun emp => emp.name = name)).length = 1 →
      (add_employee st name).1 = .error .uniqueConstraintViolation ∧
      (add_employee st name).2 = st ∧
      ((add_employee st name).2.employees.filter (fun emp => emp.name = name)).length = 1) := by
  constructor
  · intro hp
    have hpex : st.projects.any (fun p => p.name = name) = true := by
      rw [List.any_eq_true]
      have hne : st.projects.filter (fun p => decide (p.name = name)) ≠ [] := by
        intro hnil
        rw [hnil] at hp
        simp at hp
      obtain ⟨p, hpmem⟩ := List.exists_mem_of_ne_nil _ hne
      have hm := List.mem_filter.mp hpmem
      exact ⟨p, hm.1, hm.2⟩
    refine ⟨?_, ?_, ?_⟩ <;> simp [add_project, hpex, hp]
  · intro he
    have heex : st.employees.any (fun emp => emp.name = name) = true := by
      rw [List.any_eq_true]
      have hne : st.employees.filter (fun emp => decide (emp.name = name)) ≠ [] := by
        intro hnil
        rw [hnil] at he
        simp at he
      obtain ⟨emp, hemem⟩ := List.exists_mem_of_ne_nil _ hne
      have hm := List.mem_filter.mp hemem
      exact ⟨emp, hm.1, hm.2⟩
    refine ⟨?_, ?_, ?_⟩ <;> simp [add_employee, heex, he]

/-- Witness for C7: a store whose only row named "P" is a project rejects
the duplicate project, and a store whose only row named "Q" is an employee
rejects the duplicate employee — each hypothesis discharged on a store
where the name exists in that one table alone. -/
theorem C7_witness :
    ((add_project (Store.mk [ProjectRow.mk 1 "P"] [] [] 2 1 1) "P").1 =
        .error .uniqueConstraintViolation ∧
      (add_project (Store.mk [ProjectRow.mk 1 "P"] [] [] 2 1 1) "P").2 =
        Store.mk [ProjectRow.mk 1 "P"] [] [] 2 1 1 ∧
      ((add_project (Store.mk [ProjectRow.mk 1 "P"] [] [] 2 1 1) "P").2.projects.filter
        (fun p => p.name = "P")).length = 1) ∧
    ((add_employee (Store.mk [] [EmployeeRow.mk 1 "Q"] [] 1 2 1) "Q").1 =
        .error .uniqueConstraintViolation ∧
      (add_employee (Store.mk [] [EmployeeRow.mk 1 "Q"] [] 1 2 1) "Q").2 =
        Store.mk [] [EmployeeRow.mk 1 "Q"] [] 1 2 1 ∧
      ((add_employee (Store.mk [] [EmployeeRow.mk 1 "Q"] [] 1 2 1) "Q").2.employees.filter
        (fun emp => emp.name = "Q")).length = 1) :=
  ⟨(C7 (Store.mk [ProjectRow.mk 1 "P"] [] [] 2 1 1) "P").1 (by decide),
   (C7 (Store.mk [] [EmployeeRow.mk 1 "Q"] [] 1 2 1) "Q").2 (by decide)⟩

/-- C8: deleting a log id that is not present leaves the store — and hence
`fetch_all_logs` — unchanged and raises no error; deleting twice equals
deleting once. -/
theorem C8 (st : Store) (log_id : Nat)
    (h : ∀ r ∈ st.project_status, r.id ≠ log_id) :
    delete_log st log_id = st ∧
    fetch_all_logs (delete_log st log_id) = fetch_all_logs st ∧
    delete_log (delete_log st log_id) log_id = delete_log st log_id := by
  have heq : delete_log st log_id = st := by
    unfold delete_log
    have hfil : st.project_status.filter (fun r => decide (r.id ≠ log_id)) =
        st.project_status :=
      List.filter_eq_self.mpr (fun r hr => decide_eq_true (h r hr))
    rw [hfil]
  exact ⟨heq, by rw [heq], by rw [heq]; exact heq⟩

/-- Witness for C8: deleting the absent id 5 from a store holding one log
with id 1 is a no-op. -/
theorem C8_witness :
    delete_log (Store.mk [] [] [LogRow.mk 1 "A" 1 "Done" 100 2] 1 1 2) 5 =
      Store.mk [] [] [LogRow.mk 1 "A" 1 "Done" 100 2] 1 1 2 ∧
    fetch_all_logs (delete_log (Store.mk [] [] [LogRow.mk 1 "A" 1 "Done" 100 2] 1 1 2) 5) =
      fetch_all_logs (Store.mk [] [] [LogRow.mk 1 "A" 1 "Done" 100 2] 1 1 2) ∧
    delete_log (delete_log (Store.mk [] [] [LogRow.mk 1 "A" 1 "Done" 100 2] 1 1 2) 5) 5 =
      delete_log (Store.mk [] [] [LogRow.mk 1 "A" 1 "Done" 100 2] 1 1 2) 5 :=
  C8 (Store.mk [] [] [LogRow.mk 1 "A" 1 "Done" 100 2] 1 1 2) 5 (by decide)

/-- C10: `fetch_all_logs` is an inner join — every returned entry comes from
a `project_status` row whose `project_id` matches an existing project, and
removing the dangling rows changes neither `fetch_all_logs` nor anything
built from it, such as `compute_summary`. -/
theorem C10 (st : Store) :
    (∀ en ∈ fetch_all_logs st, ∃ row ∈ st.project_status, ∃ p ∈ st.projects,
        p.id = row.project_id ∧
        en = { id := row.id, employee := row.employee, project_name := p.name,
               status := row.status, commit_time := row.commit_time,
               projected_end_date := row.projected_end_date }) ∧
    fetch_all_logs (dropDangling st) = fetch_all_logs st ∧
    compute_summary (fetch_all_logs (dropDangling st)) =
      compute_summary (fetch_all_logs st) := by
  have hdrop : fetch_all_logs (dropDangling st) = fetch_all_logs st := by
    unfold fetch_all_logs dropDangling
    simp only []
    refine congrArg _ ?_
    apply filterMap_filter_eq
    intro row hq
    unfold joinRow
    rcases hf : st.projects.find? (fun p => p.id = row.project_id) with _ | p
    · rw [hf]
    · exfalso
      have hmem := List.mem_of_find?_eq_some hf
      have hpred := List.find?_some hf
      have : st.projects.any (fun p => p.id = row.project_id) = true :=
        List.any_eq_true.mpr ⟨p, hmem, hpred⟩
      rw [this] at hq
      cases hq
  refine ⟨?_, hdrop, congrArg compute_summary hdrop⟩
  intro en hen
  have hen' : en ∈ st.project_status.filterMap (joinRow st.projects) :=
    (List.perm_insertionSort _ _).mem_iff.mp hen
  obtain ⟨row, hrow, hjoin⟩ := List.mem_filterMap.mp hen'
  refine ⟨row, hrow, ?_⟩
  unfold joinRow at hjoin
  rcases hf : st.projects.find? (fun p => p.id = row.project_id) with _ | p
  · rw [hf] at hjoin
    exact absurd hjoin (by simp)
  · rw [hf] at hjoin
    simp only [Option.some.injEq] at hjoin
    have hmem := List.mem_of_find?_eq_some hf
    have hpred := List.find?_some hf
    simp only [decide_eq_true_eq] at hpred
    exact ⟨p, hmem, hpred, hjoin.symm⟩

/-- Witness for C10, at a store with one joined row and one dangling row. -/
theorem C10_witness :
    (∀ en ∈ fetch_all_logs
        (Store.mk [ProjectRow.mk 1 "P"] []
          [LogRow.mk 1 "A" 1 "Done" 100 2, LogRow.mk 2 "A" 9 "Done" 50 2] 2 1 3),
      ∃ row ∈ [LogRow.mk 1 "A" 1 "Done" 100 2, LogRow.mk 2 "A" 9 "Done" 50 2],
      ∃ p ∈ [ProjectRow.mk 1 "P"],
        p.id = row.project_id ∧
        en = { id := row.id, employee := row.employee, project_name := p.name,
               status := row.status, commit_time := row.commit_time,
               projected_end_date := row.projected_end_date }) ∧
    fetch_all_logs (dropDangling
        (Store.mk [ProjectRow.mk 1 "P"] []
          [LogRow.mk 1 "A" 1 "Done" 100 2, LogRow.mk 2 "A" 9 "Done" 50 2] 2 1 3)) =
      fetch_all_logs
        (Store.mk [ProjectRow.mk 1 "P"] []
          [LogRow.mk 1 "A" 1 "Done" 100 2, LogRow.mk 2 "A" 9 "Done" 50 2] 2 1 3) ∧
    compute_summary (fetch_all_logs (dropDangling
        (Store.mk [ProjectRow.mk 1 "P"] []
          [LogRow.mk 1 "A" 1 "Done" 100 2, LogRow.mk 2 "A" 9 "Done" 50 2] 2 1 3))) =
      compute_summary (fetch_all_logs
        (Store.mk [ProjectRow.mk 1 "P"] []
          [LogRow.mk 1 "A" 1 "Done" 100 2, LogRow.mk 2 "A" 9 "Done" 50 2] 2 1 3)) :=
  C10 (Store.mk [ProjectRow.mk 1 "P"] []
    [LogRow.mk 1 "A" 1 "Done" 100 2, LogRow.mk 2 "A" 9 "Done" 50 2] 2 1 3)

theorem scatterKeys_eq (logs : List StatusLogEntry) : scatterKeys logs = groupKeys logs := rfl

theorem scatterGroupRecord_eq (employee project : String) (recs : List StatusLogEntry) :
    scatterGroupRecord employee project recs =
      (groupDurations recs).map
        (fun pa => ScatterRecord.mk employee project pa.2 pa.1) := by
  rcases recs with _ | ⟨r0, rs⟩
  · rfl
  · rcases hd : doneRecords (r0 :: rs) with _ | ⟨d0, ds⟩
    · have hd2 : (r0 :: rs).filter (fun r => decide (r.status = "Done")) = [] := hd
      unfold scatterGroupRecord groupDurations groupFinish
      rw [hd, hd2]
      rfl
    · have hd2 : (r0 :: rs).filter (fun r => decide (r.status = "Done")) = d0 :: ds := hd
      unfold scatterGroupRecord groupDurations groupFinish groupStart
      rw [hd, hd2]
      rfl

/-- C9: the scatter-series loop produces exactly one record per qualifying
(employee, project) group — as many records as summary lines — and its
actual/projected durations are the very values `compute_summary` computes
for that group. -/
theorem C9 (logs : List StatusLogEntry) :
    scatter_records logs = (groupKeys logs).filterMap (fun k =>
      (groupDurations (groupEntries logs k)).map
        (fun pa => ScatterRecord.mk k.1 k.2 pa.2 pa.1)) ∧
    (scatter_records logs).length = (summary_lines logs).length ∧
    (∀ rcd ∈ scatter_records logs, ∃ p a,
      groupDurations (groupEntries logs (rcd.employee, rcd.project)) = some (p, a) ∧
      rcd.actual_duration = a ∧ rcd.projected_duration = p) := by
  have hmain : scatter_records logs = (groupKeys logs).filterMap (fun k =>
      (groupDurations (groupEntries logs k)).map
        (fun pa => ScatterRecord.mk k.1 k.2 pa.2 pa.1)) := by
    unfold scatter_records
    rw [scatterKeys_eq]
    apply List.filterMap_congr
    intro k _
    exact scatterGroupRecord_eq k.1 k.2 (groupEntries logs k)
  refine ⟨hmain, ?_, ?_⟩
  · rw [hmain]
    unfold summary_lines
    apply length_filterMap_congr
    intro k _
    rcases hgd : groupDurations (groupEntries logs k) with _ | ⟨p, a⟩
    · rfl
    · rfl
  · intro rcd hmem
    rw [hmain] at hmem
    obtain ⟨k, hk, hsome⟩ := List.mem_filterMap.mp hmem
    rcases hgd : groupDurations (groupEntries logs k) with _ | ⟨p, a⟩
    · rw [hgd] at hsome
      exact absurd hsome (by simp)
    · rw [hgd] at hsome
      simp only [Option.map_some', Option.some.injEq] at hsome
      refine ⟨p, a, ?_, ?_, ?_⟩
      · rw [← hsome]
        exact hgd
      · rw [← hsome]
      · rw [← hsome]

/-- Witness for C9, at the single-group log list `[wLog1, wLog2]`. -/
theorem C9_witness :
    scatter_records [wLog1, wLog2] = (groupKeys [wLog1, wLog2]).filterMap (fun k =>
      (groupDurations (groupEntries [wLog1, wLog2] k)).map
        (fun pa => ScatterRecord.mk k.1 k.2 pa.2 pa.1)) ∧
    (scatter_records [wLog1, wLog2]).length = (summary_lines [wLog1, wLog2]).length ∧
    (∀ rcd ∈ scatter_records [wLog1, wLog2], ∃ p a,
      groupDurations (groupEntries [wLog1, wLog2] (rcd.employee, rcd.project)) = some (p, a) ∧
      rcd.actual_duration = a ∧ rcd.projected_duration = p) :=
  C9 [wLog1, wLog2]

theorem dayWeek_emod (d : Int) : dayWeek d % 7 = 4 := by
  unfold dayWeek
  omega

theorem dayWeek_sub_dvd (d1 d2 : Int) : (7 : Int) ∣ dayWeek d1 - dayWeek d2 := by
  have h1 := dayWeek_emod d1
  have h2 := dayWeek_emod d2
  omega

theorem commitWeek_sub_dvd (t1 t2 : Int) : (7 : Int) ∣ commitWeek t1 - commitWeek t2 :=
  dayWeek_sub_dvd (t1.fdiv 86400) (t2.fdiv 86400)

theorem weekSeq_mem (n : Nat) : ∀ s e w : Int, e < s + 7 * n →
    (w ∈ weekSeq s e n ↔ s ≤ w ∧ w ≤ e ∧ (7 : Int) ∣ (w - s)) := by
  induction n with
  | zero =>
      intro s e w h
      simp only [weekSeq]
      constructor
      · intro hw
        exact absurd hw (List.not_mem_nil w)
      · rintro ⟨h1, h2, _⟩
        exfalso
        omega
  | succ n ih =>
      intro s e w h
      simp only [weekSeq]
      by_cases hse : s ≤ e
      · rw [if_pos hse, List.mem_cons, ih (s + 7) e w (by omega)]
        constructor
        · rintro (rfl | ⟨h1, h2, h3⟩)
          · exact ⟨le_refl w, hse, ⟨0, by ring⟩⟩
          · exact ⟨by omega, h2, by omega⟩
        · rintro ⟨h1, h2, h3⟩
          by_cases hw : w = s
          · exact Or.inl hw
          · exact Or.inr ⟨by omega, h2, by omega⟩
      · rw [if_neg hse]
        constructor
        · intro hw
          exact absurd hw (List.not_mem_nil w)
        · rintro ⟨h1, h2, _⟩
          exfalso
          omega

theorem weekSeq_head (n : Nat) (s e : Int) :
    (weekSeq s e n).head? = none ∨ (weekSeq s e n).head? = some s := by
  cases n with
  | zero => exact Or.inl rfl
  | succ n =>
      simp only [weekSeq]
      by_cases hse : s ≤ e
      · rw [if_pos hse]
        exact Or.inr rfl
      · rw [if_neg hse]
        exact Or.inl rfl

theorem weekSeq_chain (n : Nat) : ∀ s e : Int,
    List.Chain' (fun a b => b = a + 7) (weekSeq s e n) := by
  induction n with
  | zero => intro s e; simp [weekSeq]
  | succ n ih =>
      intro s e
      simp only [weekSeq]
      by_cases hse : s ≤ e
      · rw [if_pos hse, List.chain'_cons']
        refine ⟨?_, ih (s + 7) e⟩
        intro b hb
        rcases weekSeq_head n (s + 7) e with h | h
        · rw [h] at hb
          cases hb
        · rw [h] at hb
          cases hb
          rfl
      · rw [if_neg hse]
        simp

theorem startWeek_eq_foldl (l : StatusLogEntry) (ls : List StatusLogEntry) :
    startWeek l ls =
      (ls.map (fun r => commitWeek r.commit_time)).foldl min (commitWeek l.commit_time) := by
  unfold startWeek
  rw [List.foldl_map]

theorem endWeek_eq_foldl (l : StatusLogEntry) (ls : List StatusLogEntry) :
    endWeek l ls =
      (ls.map (fun r => commitWeek r.commit_time)).foldl max (commitWeek l.commit_time) := by
  unfold endWeek
  rw [List.foldl_map]

theorem startWeek_le (l : StatusLogEntry) (ls : List StatusLogEntry) :
    ∀ r ∈ l :: ls, startWeek l ls ≤ commitWeek r.commit_time := by
  intro r hr
  rw [startWeek_eq_foldl]
  rcases List.mem_cons.mp hr with rfl | hr
  · exact foldl_min_le_init _ _
  · exact foldl_min_le_mem _ _ _ (List.mem_map_of_mem _ hr)

theorem startWeek_mem (l : StatusLogEntry) (ls : List StatusLogEntry) :
    ∃ r ∈ l :: ls, commitWeek r.commit_time = startWeek l ls := by
  rw [startWeek_eq_foldl]
  rcases foldl_min_mem (ls.map (fun r => commitWeek r.commit_time))
      (commitWeek l.commit_time) with h | h
  · exact ⟨l, List.mem_cons_self l ls, h.symm⟩
  · obtain ⟨r, hr, he⟩ := List.mem_map.mp h
    exact ⟨r, List.mem_cons_of_mem l hr, he⟩

theorem endWeek_ge (l : StatusLogEntry) (ls : List StatusLogEntry) :
    ∀ r ∈ l :: ls, commitWeek r.commit_time ≤ endWeek l ls := by
  intro r hr
  rw [endWeek_eq_foldl]
  rcases List.mem_cons.mp hr with rfl | hr
  · exact foldl_max_ge_init _ _
  · exact foldl_max_ge_mem _ _ _ (List.mem_map_of_mem _ hr)

theorem endWeek_mem (l : StatusLogEntry) (ls : List StatusLogEntry) :
    ∃ r ∈ l :: ls, commitWeek r.commit_time = endWeek l ls := by
  rw [endWeek_eq_foldl]
  rcases foldl_max_mem (ls.map (fun r => commitWeek r.commit_time))
      (commitWeek l.commit_time) with h | h
  · exact ⟨l, List.mem_cons_self l ls, h.symm⟩
  · obtain ⟨r, hr, he⟩ := List.mem_map.mp h
    exact ⟨r, List.mem_cons_of_mem l hr, he⟩

/-- Counterexample for C6 as stated: with no logs and `today` a Wednesday
(2024-01-03 is epoch-day 19725), the single column holds today's date
itself, not the start (Monday 2024-01-01, epoch-day 19723) of the week
containing today. -/
theorem C6_counterexample :
    week_list [] 19725 = [19725] ∧ dayWeek 19725 = 19723 ∧
    week_list [] 19725 ≠ [dayWeek 19725] := by decide

/-- C6 (amended): for non-empty logs the week columns form the continuous
7-day-stepped run from the earliest to the latest commit week (no gaps, no
extras); for empty logs there is exactly one column holding today's date
itself (a week start only when today is a Monday); with no employees the
grid has no body rows. -/
theorem C6 (l : StatusLogEntry) (ls : List StatusLogEntry) (today : Int) :
    ((∀ r ∈ l :: ls, startWeek l ls ≤ commitWeek r.commit_time) ∧
     (∃ r ∈ l :: ls, commitWeek r.commit_time = startWeek l ls) ∧
     (∀ r ∈ l :: ls, commitWeek r.commit_time ≤ endWeek l ls) ∧
     (∃ r ∈ l :: ls, commitWeek r.commit_time = endWeek l ls) ∧
     (week_list (l :: ls) today).head? = some (startWeek l ls) ∧
     endWeek l ls ∈ week_list (l :: ls) today ∧
     List.Chain' (fun a b => b = a + 7) (week_list (l :: ls) today) ∧
     (∀ w, w ∈ week_list (l :: ls) today ↔
       startWeek l ls ≤ w ∧ w ≤ endWeek l ls ∧ (7 : Int) ∣ (w - startWeek l ls))) ∧
    week_list [] today = [today] ∧
    weekly_grid [] [] today = [] := by
  have hse : startWeek l ls ≤ endWeek l ls :=
    le_trans (startWeek_le l ls l (List.mem_cons_self l ls))
      (endWeek_ge l ls l (List.mem_cons_self l ls))
  have hfuel : endWeek l ls <
      startWeek l ls + 7 * (((endWeek l ls - startWeek l ls).toNat / 7 + 1) : Nat) := by
    omega
  have hwl : week_list (l :: ls) today =
      weekSeq (startWeek l ls) (endWeek l ls)
        ((endWeek l ls - startWeek l ls).toNat / 7 + 1) := rfl
  have hdvd : (7 : Int) ∣ endWeek l ls - startWeek l ls := by
    obtain ⟨r1, _, h1⟩ := startWeek_mem l ls
    obtain ⟨r2, _, h2⟩ := endWeek_mem l ls
    rw [← h1, ← h2]
    exact commitWeek_sub_dvd r2.commit_time r1.commit_time
  refine ⟨⟨startWeek_le l ls, startWeek_mem l ls, endWeek_ge l ls, endWeek_mem l ls,
    ?_, ?_, ?_, ?_⟩, rfl, rfl⟩
  · rw [hwl]
    simp [weekSeq, hse]
  · rw [hwl]
    exact (weekSeq_mem _ _ _ _ hfuel).mpr ⟨hse, le_refl _, hdvd⟩
  · rw [hwl]
    exact weekSeq_chain _ _ _
  · intro w
    rw [hwl]
    exact weekSeq_mem _ _ _ w hfuel

/-- Witness for C6 (amended), at the two-log list `[wLog1, wLog2]` with
today = epoch day 0. -/
theorem C6_witness :
    ((∀ r ∈ wLog1 :: [wLog2], startWeek wLog1 [wLog2] ≤ commitWeek r.commit_time) ∧
     (∃ r ∈ wLog1 :: [wLog2], commitWeek r.commit_time = startWeek wLog1 [wLog2]) ∧
     (∀ r ∈ wLog1 :: [wLog2], commitWeek r.commit_time ≤ endWeek wLog1 [wLog2]) ∧
     (∃ r ∈ wLog1 :: [wLog2], commitWeek r.commit_time = endWeek wLog1 [wLog2]) ∧
     (week_list (wLog1 :: [wLog2]) 0).head? = some (startWeek wLog1 [wLog2]) ∧
     endWeek wLog1 [wLog2] ∈ week_list (wLog1 :: [wLog2]) 0 ∧
     List.Chain' (fun a b => b = a + 7) (week_list (wLog1 :: [wLog2]) 0) ∧
     (∀ w, w ∈ week_list (wLog1 :: [wLog2]) 0 ↔
       startWeek wLog1 [wLog2] ≤ w ∧ w ≤ endWeek wLog1 [wLog2] ∧
         (7 : Int) ∣ (w - startWeek wLog1 [wLog2]))) ∧
    week_list [] 0 = [0] ∧
    weekly_grid [] [] 0 = [] :=
  C6 wLog1 [wLog2] 0
